import Mathlib

/-!
Verification of the chunking + retrieval-augmented question-answering
pipeline specified for the LLM-Chat-Bot-With-Long-Term-Memory repository.

The repository's notebook delegates every functional piece (text splitting,
vector storage, similarity search, conversational chaining) to third-party
libraries, so the component implementations are not part of the repository's
source tree.  Following the specification, each component is modelled here
from the spec's contract: the Chunker's fixed-window splitting algorithm,
the VectorIndex with cosine-similarity search, the Retriever, and the
ConversationSession state machine.
-/

/-- Modelled from the spec: the error taxonomy of section 7.  The notebook
performs no explicit error handling itself; these are the failure kinds the
spec assigns to the core components. -/
inductive CoreError where
  | InvalidConfig
  | DimensionMismatch
  | EmptyIndex
  | SessionBusy
  | SourceUnavailable
  | EmbeddingServiceError
  | GenerationServiceError
  | Timeout
deriving DecidableEq

/-- Fuel-indexed worker for the Chunker: repeatedly take a window of up to
`size` characters from the current suffix and advance by `step` characters.
The fuel argument (instantiated with the text length) makes the recursion
structural. -/
def splitGoFuel (size step : Nat) : Nat → List Char → List (List Char)
  | _, [] => []
  | 0, _ :: _ => []
  | fuel + 1, c :: cs => (c :: cs).take size :: splitGoFuel size step fuel ((c :: cs).drop step)

/-- Modelled from the spec: the mandatory minimum fixed-window splitting
algorithm of section 4.1 (the notebook delegates splitting to the library
text splitter, whose implementation is not in the repository).  For each
document, repeatedly take a window of up to `chunk_size` characters starting
at the current offset, advance the offset by `chunk_size - chunk_overlap`,
and stop when the offset reaches the document's length. -/
def splitGo (size step : Nat) (t : List Char) : List (List Char) :=
  splitGoFuel size step t.length t

/-- Modelled from the spec: `Chunker.split` on a single document, with the
configuration validation of section 4.1: fails with `InvalidConfig` unless
`chunk_overlap` lies in `[0, chunk_size)` (which forces `chunk_size > 0`). -/
def Chunker.split (chunkSize chunkOverlap : Int) (t : List Char) :
    Except CoreError (List (List Char)) :=
  if 0 ≤ chunkOverlap ∧ chunkOverlap < chunkSize then
    .ok (splitGo chunkSize.toNat (chunkSize.toNat - chunkOverlap.toNat) t)
  else
    .error .InvalidConfig

/-- Concatenation of the chunks' unique (non-overlapping) spans, in order:
the first chunk contributes all of its text, and every later chunk
contributes its text minus the `ov`-character prefix it shares with its
predecessor. -/
def joinUnique (ov : Nat) : List (List Char) → List Char
  | [] => []
  | c :: rest => c ++ (rest.map (fun d => d.drop ov)).flatten

/-- Dot product of two rational vectors (truncating to the shorter length). -/
def dotQ : List ℚ → List ℚ → ℚ
  | a :: as, b :: bs => a * b + dotQ as bs
  | _, _ => 0

/-- Squared Euclidean magnitude of a rational vector. -/
def normSqQ (v : List ℚ) : ℚ := dotQ v v

/-- Cosine similarity as specified: the dot product divided by the product of
the two magnitudes, valued in the real numbers. -/
noncomputable def cosSimR (q v : List ℚ) : ℝ :=
  (dotQ q v : ℝ) / (Real.sqrt (normSqQ q : ℝ) * Real.sqrt (normSqQ v : ℝ))

/-- Executable comparison deciding `cosSimR q b ≤ cosSimR q a` over the
rationals: compare the signs of the dot products and, when the signs agree,
compare the squared similarities cross-multiplied by the squared magnitudes. -/
def simGE (q a b : List ℚ) : Bool :=
  if 0 < dotQ q a then
    decide (dotQ q b ≤ 0) ||
      decide ((dotQ q b) ^ 2 * normSqQ a ≤ (dotQ q a) ^ 2 * normSqQ b)
  else if dotQ q a = 0 then
    decide (dotQ q b ≤ 0)
  else
    decide (dotQ q b < 0) &&
      decide ((dotQ q a) ^ 2 * normSqQ b ≤ (dotQ q b) ^ 2 * normSqQ a)

/-- Modelled from the spec: an index entry is a chunk of text, its embedding
vector, and a unique id assigned at insertion time (the notebook delegates
storage to the Chroma vector store, whose implementation is not in the
repository). -/
structure IndexEntry where
  id : Nat
  chunk : String
  vec : List ℚ
deriving DecidableEq

/-- Modelled from the spec: the in-memory vector index, holding its entries
in insertion order. -/
structure VectorIndex where
  entries : List IndexEntry
deriving DecidableEq

/-- Dimension of the index, fixed by the first inserted vector (0 when the
index is empty and no dimension has been established). -/
def VectorIndex.dim (ix : VectorIndex) : Nat :=
  match ix.entries with
  | [] => 0
  | e :: _ => e.vec.length

/-- Modelled from the spec: `insert` appends the given (chunk, vector) pairs
with freshly assigned ids, rejecting the whole batch with
`DimensionMismatch` when any vector's length differs from the established
dimension (taken from the first vector ever inserted). -/
def VectorIndex.insertDim (ix : VectorIndex) (items : List (String × List ℚ)) : Nat :=
  match ix.entries, items with
  | e :: _, _ => e.vec.length
  | [], (_, v) :: _ => v.length
  | [], [] => 0

def VectorIndex.insert (ix : VectorIndex) (items : List (String × List ℚ)) :
    Except CoreError (VectorIndex × List Nat) :=
  if items.all (fun p => p.2.length = ix.insertDim items) then
    .ok (⟨ix.entries ++ items.enum.map
            (fun p => ⟨ix.entries.length + p.1, p.2.1, p.2.2⟩)⟩,
         (List.range items.length).map (fun i => ix.entries.length + i))
  else
    .error .DimensionMismatch

/-- Ranking relation on position-tagged entries: strictly greater cosine
similarity to the query comes first, and ties are broken by insertion
position (earlier first). -/
def entryRel (q : List ℚ) (x y : Nat × IndexEntry) : Prop :=
  (if simGE q x.2.vec y.2.vec && simGE q y.2.vec x.2.vec then
    decide (x.1 ≤ y.1)
  else
    simGE q x.2.vec y.2.vec) = true

instance entryRel.decidable (q : List ℚ) : DecidableRel (entryRel q) :=
  fun _ _ => instDecidableEqBool _ _

/-- Modelled from the spec: `search` returns the `min k N` position-tagged
entries most similar to the query, ranked by descending cosine similarity
with ties broken by insertion order.  It fails with `EmptyIndex` when the
index has no entries and with `DimensionMismatch` when the query's length
differs from the established dimension.  (The numeric similarity score of a
returned entry `x` is `cosSimR q x.2.vec`.) -/
def VectorIndex.search (ix : VectorIndex) (q : List ℚ) (k : Nat) :
    Except CoreError (List (Nat × IndexEntry)) :=
  match ix.entries with
  | [] => .error .EmptyIndex
  | _ :: _ =>
    if q.length = ix.dim then
      .ok ((ix.entries.enum.insertionSort (entryRel q)).take k)
    else
      .error .DimensionMismatch

/-- Modelled from the spec: the two states of the ConversationSession state
machine of section 4.4 — `Idle` (no turn in progress) and `AwaitingAnswer`
(a retrieval+answer call is outstanding for the recorded question). -/
inductive SessionState where
  | Idle
  | AwaitingAnswer (pending : String)
deriving DecidableEq

/-- Modelled from the spec: a conversation session, holding the append-only
ordered history of (question, answer) turns and the state-machine state. -/
structure ConversationSession where
  history : List (String × String)
  sstate : SessionState
deriving DecidableEq

/-- Modelled from the spec: entering a turn.  From `Idle` the session moves
to `AwaitingAnswer`; while `AwaitingAnswer`, a second `ask` is rejected with
`SessionBusy` and the session is left untouched. -/
def ConversationSession.beginAsk (s : ConversationSession) (q : String) :
    ConversationSession × Except CoreError Unit :=
  match s.sstate with
  | .AwaitingAnswer _ => (s, .error .SessionBusy)
  | .Idle => ({ s with sstate := .AwaitingAnswer q }, .ok ())

/-- Modelled from the spec: completing a turn.  On success the (question,
answer) pair is appended to the history; on failure the history is left
unchanged; either way the session returns to `Idle`. -/
def ConversationSession.finishAsk (s : ConversationSession)
    (outcome : Except CoreError String) :
    ConversationSession × Except CoreError String :=
  match s.sstate with
  | .Idle => (s, outcome)
  | .AwaitingAnswer q =>
    match outcome with
    | .error e => ({ s with sstate := .Idle }, .error e)
    | .ok a => (⟨s.history ++ [(q, a)], .Idle⟩, .ok a)

/-- Modelled from the spec: `ask` orchestrates one turn — call the retriever
for context chunks, call the answerer with the question, the context, and
the full prior history, append the turn on success, and surface any failure
unchanged with the history untouched. -/
def ConversationSession.ask
    (retrieve : String → Except CoreError (List String))
    (answerer : String → List String → List (String × String) →
      Except CoreError String)
    (s : ConversationSession) (q : String) :
    ConversationSession × Except CoreError String :=
  match s.beginAsk q with
  | (s1, .error e) => (s1, .error e)
  | (s1, .ok _) =>
    match retrieve q with
    | .error e => s1.finishAsk (.error e)
    | .ok ctx => s1.finishAsk (answerer q ctx s1.history)

/-- Modelled from the spec: the combined pipeline state threaded through the
stateful operations — the vector index plus the conversation session. -/
structure BotState where
  index : VectorIndex
  session : ConversationSession
deriving DecidableEq

/-- Modelled from the spec: stateful wrapper of `VectorIndex.search`, making
explicit which index the caller holds after the call (a query reads the
entries and never rewrites them). -/
def VectorIndex.searchSt (ix : VectorIndex) (q : List ℚ) (k : Nat) :
    VectorIndex × Except CoreError (List (Nat × IndexEntry)) :=
  (ix, ix.search q k)

/-- Modelled from the spec: stateful wrapper of `VectorIndex.insert`; a
successful insertion replaces the caller's index with the extended one. -/
def VectorIndex.insertSt (ix : VectorIndex) (items : List (String × List ℚ)) :
    VectorIndex × Except CoreError (List Nat) :=
  match ix.insert items with
  | .error e => (ix, .error e)
  | .ok (ix2, ids) => (ix2, .ok ids)

/-- Modelled from the spec: `Retriever.retrieve` embeds the question, runs
the stateful search with the retriever's fixed `k`, and propagates embedder
or index failures unchanged. -/
def Retriever.retrieveSt (emb : String → Except CoreError (List ℚ)) (k : Nat)
    (st : BotState) (question : String) :
    BotState × Except CoreError (List (Nat × IndexEntry)) :=
  match emb question with
  | .error e => (st, .error e)
  | .ok qv =>
    match st.index.searchSt qv k with
    | (ix2, res) => ({ st with index := ix2 }, res)

/-- Modelled from the spec: the full pipeline `ask` over the combined state,
retrieving context through the stateful retriever and completing the
session turn. -/
def askBot (emb : String → Except CoreError (List ℚ))
    (answerer : String → List String → List (String × String) →
      Except CoreError String)
    (k : Nat) (st : BotState) (q : String) :
    BotState × Except CoreError String :=
  match st.session.beginAsk q with
  | (s1, .error e) => ({ st with session := s1 }, .error e)
  | (s1, .ok _) =>
    match Retriever.retrieveSt emb k { st with session := s1 } q with
    | (st2, .error e) =>
      ({ st2 with session := (st2.session.finishAsk (.error e)).1 }, .error e)
    | (st2, .ok ctx) =>
      let out := answerer q (ctx.map (fun p => p.2.chunk)) st2.session.history
      match st2.session.finishAsk out with
      | (s2, res) => ({ st2 with session := s2 }, res)

/-! ### Chunker lemmas -/

theorem splitGoFuel_nil (size step fuel : Nat) : splitGoFuel size step fuel [] = [] := by
  cases fuel <;> rfl

theorem splitGoFuel_length_le (size step : Nat) :
    ∀ fuel t, ∀ c ∈ splitGoFuel size step fuel t, c.length ≤ size := by
  intro fuel
  induction fuel with
  | zero =>
    intro t c hc
    cases t <;> simp [splitGoFuel] at hc
  | succ n ih =>
    intro t c hc
    cases t with
    | nil => simp [splitGoFuel] at hc
    | cons a as =>
      simp only [splitGoFuel, List.mem_cons] at hc
      rcases hc with rfl | hc
      · rw [List.length_take]
        exact min_le_left ..
      · exact ih _ c hc

theorem splitGoFuel_ne_nil (size step : Nat) :
    ∀ fuel t, t ≠ [] → t.length ≤ fuel → splitGoFuel size step fuel t ≠ [] := by
  intro fuel t ht hle
  cases t with
  | nil => exact absurd rfl ht
  | cons a as =>
    cases fuel with
    | zero => simp at hle
    | succ n => simp [splitGoFuel]

theorem splitGoFuel_flatten_drop (size step ov : Nat) (hs : 0 < step)
    (hsz : size = step + ov) :
    ∀ fuel t, t.length ≤ fuel →
      ((splitGoFuel size step fuel t).map (fun d => d.drop ov)).flatten = t.drop ov := by
  intro fuel
  induction fuel with
  | zero =>
    intro t hle
    have ht : t = [] := List.length_eq_zero.mp (Nat.le_zero.mp hle)
    subst ht
    simp [splitGoFuel_nil]
  | succ n ih =>
    intro t hle
    cases t with
    | nil => simp [splitGoFuel_nil]
    | cons a as =>
      simp only [splitGoFuel, List.map_cons, List.flatten_cons]
      rw [ih ((a :: as).drop step)
          (by simp only [List.length_drop, List.length_cons] at hle ⊢; omega)]
      rw [List.drop_take, List.drop_drop,
        show step + ov = ov + step from by omega, ← List.drop_drop,
        show size - ov = step from by omega, List.take_append_drop]

theorem splitGoFuel_joinUnique (size step ov : Nat) (hs : 0 < step)
    (hsz : size = step + ov) :
    ∀ fuel t, t.length ≤ fuel → joinUnique ov (splitGoFuel size step fuel t) = t := by
  intro fuel t hle
  cases t with
  | nil => rw [splitGoFuel_nil]; rfl
  | cons a as =>
    cases fuel with
    | zero => simp at hle
    | succ n =>
      simp only [splitGoFuel, joinUnique]
      rw [splitGoFuel_flatten_drop size step ov hs hsz n ((a :: as).drop step)
          (by simp only [List.length_drop, List.length_cons] at hle ⊢; omega)]
      rw [List.drop_drop, show step + ov = size from by omega, List.take_append_drop]

theorem splitGoFuel_count (size step : Nat) (hs : 0 < step) :
    ∀ fuel t, t.length ≤ fuel →
      (splitGoFuel size step fuel t).length = (t.length + step - 1) / step := by
  intro fuel
  induction fuel with
  | zero =>
    intro t hle
    have ht : t = [] := List.length_eq_zero.mp (Nat.le_zero.mp hle)
    subst ht
    rw [splitGoFuel_nil]
    have h2 : (0 + step - 1) / step = 0 := Nat.div_eq_of_lt (by omega)
    simp only [List.length_nil, List.length, h2]
  | succ n ih =>
    intro t hle
    cases t with
    | nil =>
      rw [splitGoFuel_nil]
      have h2 : (0 + step - 1) / step = 0 := Nat.div_eq_of_lt (by omega)
      simp only [List.length_nil, List.length, h2]
    | cons a as =>
      simp only [splitGoFuel, List.length_cons]
      rw [ih ((a :: as).drop step)
          (by simp only [List.length_drop, List.length_cons] at hle ⊢; omega)]
      simp only [List.length_drop, List.length_cons]
      rcases Nat.le_total (as.length + 1) step with hcase | hcase
      · have h1 : as.length + 1 - step = 0 := by omega
        rw [h1]
        have h2 : (0 + step - 1) / step = 0 := Nat.div_eq_of_lt (by omega)
        have h3 : (as.length + 1 + step - 1) / step = 1 :=
          Nat.div_eq_of_lt_le (by omega) (by omega)
        omega
      · have h1 : as.length + 1 - step + step - 1 = as.length := by omega
        have h2 : as.length + 1 + step - 1 = as.length + step := by omega
        rw [h1, h2, Nat.add_div_right _ hs]

theorem splitGoFuel_dropLast_length (size : Nat) (hsz : 0 < size) :
    ∀ fuel t, t.length ≤ fuel →
      ∀ c ∈ (splitGoFuel size size fuel t).dropLast, c.length = size := by
  intro fuel
  induction fuel with
  | zero =>
    intro t hle c hc
    have ht : t = [] := List.length_eq_zero.mp (Nat.le_zero.mp hle)
    subst ht
    simp [splitGoFuel_nil] at hc
  | succ n ih =>
    intro t hle c hc
    cases t with
    | nil => simp [splitGoFuel_nil] at hc
    | cons a as =>
      simp only [splitGoFuel] at hc
      by_cases hrest : splitGoFuel size size n ((a :: as).drop size) = []
      · rw [hrest] at hc
        simp at hc
      · rw [List.dropLast_cons_of_ne_nil hrest, List.mem_cons] at hc
        rcases hc with rfl | hc
        · have hdrop : (a :: as).drop size ≠ [] := by
            intro hctr
            exact hrest (by rw [hctr, splitGoFuel_nil])
          have hlt : size < (a :: as).length := by
            by_contra hcon
            exact hdrop (List.drop_eq_nil_of_le (by omega))
          rw [List.length_take]
          omega
        · exact ih _
            (by simp only [List.length_drop, List.length_cons] at hle ⊢; omega) c hc

/-- C1: for every chunking configuration with `0 ≤ chunk_overlap <
chunk_size` and every input document, `Chunker.split` produces only chunks
of length at most `chunk_size`, and concatenating the chunks' unique
(non-overlapping) spans in order reconstructs the document text exactly. -/
theorem C1_split_bounded_and_reconstructs (chunkSize chunkOverlap : Int)
    (t : List Char) (h0 : 0 ≤ chunkOverlap) (h1 : chunkOverlap < chunkSize) :
    ∃ cs, Chunker.split chunkSize chunkOverlap t = .ok cs ∧
      (∀ c ∈ cs, (c.length : Int) ≤ chunkSize) ∧
      joinUnique chunkOverlap.toNat cs = t := by
  refine ⟨splitGo chunkSize.toNat (chunkSize.toNat - chunkOverlap.toNat) t, ?_, ?_, ?_⟩
  · rw [Chunker.split, if_pos ⟨h0, h1⟩]
  · intro c hc
    have hb := splitGoFuel_length_le chunkSize.toNat
      (chunkSize.toNat - chunkOverlap.toNat) t.length t c hc
    omega
  · exact splitGoFuel_joinUnique chunkSize.toNat
      (chunkSize.toNat - chunkOverlap.toNat) chunkOverlap.toNat
      (by omega) (by omega) t.length t le_rfl

theorem C1_witness :
    ∃ cs, Chunker.split 3 1 "abcde".toList = .ok cs ∧
      (∀ c ∈ cs, (c.length : Int) ≤ 3) ∧
      joinUnique (1 : Int).toNat cs = "abcde".toList :=
  C1_split_bounded_and_reconstructs 3 1 "abcde".toList (by decide) (by decide)

/-- C2: a document of 8472 characters split with `chunk_size = 512` and
`chunk_overlap = 0` yields exactly `⌈8472 / 512⌉ = 17` chunks, and every
chunk except the last has length exactly 512. -/
theorem C2_seventeen_chunks (t : List Char) (h : t.length = 8472) :
    ∃ cs, Chunker.split 512 0 t = .ok cs ∧ cs.length = 17 ∧
      ∀ c ∈ cs.dropLast, c.length = 512 := by
  have htn : (512 : Int).toNat = 512 := rfl
  have hon : (0 : Int).toNat = 0 := rfl
  refine ⟨splitGo 512 512 t, ?_, ?_, ?_⟩
  · rw [Chunker.split, if_pos (by omega), htn, hon]
  · rw [splitGo, splitGoFuel_count 512 512 (by omega) t.length t le_rfl, h]
  · exact splitGoFuel_dropLast_length 512 (by omega) t.length t le_rfl

theorem C2_witness :
    ∃ cs, Chunker.split 512 0 (List.replicate 8472 'a') = .ok cs ∧
      cs.length = 17 ∧ ∀ c ∈ cs.dropLast, c.length = 512 :=
  C2_seventeen_chunks (List.replicate 8472 'a') (List.length_replicate ..)

/-- C5: `Chunker.split` fails with `InvalidConfig` exactly when the
configuration is bad (`chunk_overlap ≥ chunk_size`, `chunk_size ≤ 0`, or a
negative overlap), and succeeds exactly when `0 ≤ chunk_overlap <
chunk_size` (which entails `chunk_size > 0`). -/
theorem C5_invalid_config_iff (chunkSize chunkOverlap : Int) (t : List Char) :
    (Chunker.split chunkSize chunkOverlap t = .error .InvalidConfig ↔
      (chunkSize ≤ chunkOverlap ∨ chunkSize ≤ 0 ∨ chunkOverlap < 0)) ∧
    ((∃ cs, Chunker.split chunkSize chunkOverlap t = .ok cs) ↔
      (0 ≤ chunkOverlap ∧ chunkOverlap < chunkSize)) := by
  rw [Chunker.split]
  by_cases h : 0 ≤ chunkOverlap ∧ chunkOverlap < chunkSize
  · rw [if_pos h]
    refine ⟨⟨fun hctr => ?_, fun hctr => ?_⟩, ⟨fun _ => h, fun _ => ⟨_, rfl⟩⟩⟩
    · exact absurd hctr (by simp)
    · exfalso
      rcases hctr with h1 | h1 | h1 <;> omega
  · rw [if_neg h]
    refine ⟨⟨fun _ => ?_, fun _ => rfl⟩, ⟨fun hctr => ?_, fun hctr => absurd hctr h⟩⟩
    · omega
    · rcases hctr with ⟨cs, hcs⟩
      exact absurd hcs (by simp)

/-! ### Cosine similarity lemmas -/

theorem dotQ_nil_right : ∀ a : List ℚ, dotQ a [] = 0 := by
  intro a
  cases a <;> rfl

theorem dotQ_comm : ∀ a b : List ℚ, dotQ a b = dotQ b a := by
  intro a
  induction a with
  | nil =>
    intro b
    rw [dotQ_nil_right]
    rfl
  | cons x xs ih =>
    intro b
    cases b with
    | nil => rfl
    | cons y ys =>
      simp only [dotQ, ih ys]
      ring

theorem normSqQ_nonneg (v : List ℚ) : 0 ≤ normSqQ v := by
  rw [normSqQ]
  induction v with
  | nil => exact le_refl 0
  | cons x xs ih =>
    simp only [dotQ]
    have hx : 0 ≤ x * x := mul_self_nonneg x
    linarith

theorem dotQ_zero_of_normSq_right : ∀ a b : List ℚ, normSqQ b = 0 → dotQ a b = 0 := by
  intro a
  induction a with
  | nil => intro b _; rfl
  | cons x xs ih =>
    intro b hb
    cases b with
    | nil => rw [dotQ_nil_right]
    | cons y ys =>
      have hy2 : 0 ≤ y * y := mul_self_nonneg y
      have hys : 0 ≤ normSqQ ys := normSqQ_nonneg ys
      have hsplit : y * y + normSqQ ys = 0 := hb
      have hy : y = 0 := by
        have : y * y = 0 := by linarith
        exact mul_self_eq_zero.mp this
      have hys0 : normSqQ ys = 0 := by linarith
      simp only [dotQ, hy, ih ys hys0]
      ring

theorem normSqQ_pos_right {q a : List ℚ} (h : dotQ q a ≠ 0) : 0 < normSqQ a := by
  rcases lt_or_eq_of_le (normSqQ_nonneg a) with hp | hz
  · exact hp
  · exact absurd (dotQ_zero_of_normSq_right q a hz.symm) h

theorem normSqQ_pos_left {q a : List ℚ} (h : dotQ q a ≠ 0) : 0 < normSqQ q := by
  refine normSqQ_pos_right (q := a) ?_
  rw [dotQ_comm]
  exact h

theorem cosSimR_of_dot_zero {q a : List ℚ} (h : dotQ q a = 0) : cosSimR q a = 0 := by
  rw [cosSimR, h]
  simp

theorem cosSimR_pos {q a : List ℚ} (h : 0 < dotQ q a) : 0 < cosSimR q a := by
  have hna : 0 < normSqQ a := normSqQ_pos_right (ne_of_gt h)
  have hnq : 0 < normSqQ q := normSqQ_pos_left (ne_of_gt h)
  refine div_pos (by exact_mod_cast h) (mul_pos ?_ ?_)
  · exact Real.sqrt_pos.mpr (by exact_mod_cast hnq)
  · exact Real.sqrt_pos.mpr (by exact_mod_cast hna)

theorem cosSimR_neg {q a : List ℚ} (h : dotQ q a < 0) : cosSimR q a < 0 := by
  have hna : 0 < normSqQ a := normSqQ_pos_right (ne_of_lt h)
  have hnq : 0 < normSqQ q := normSqQ_pos_left (ne_of_lt h)
  refine div_neg_of_neg_of_pos (by exact_mod_cast h) (mul_pos ?_ ?_)
  · exact Real.sqrt_pos.mpr (by exact_mod_cast hnq)
  · exact Real.sqrt_pos.mpr (by exact_mod_cast hna)

theorem cosSimR_le_iff_mul {q a b : List ℚ} (ha : dotQ q a ≠ 0) (hb : dotQ q b ≠ 0) :
    (cosSimR q b ≤ cosSimR q a ↔
      (dotQ q b : ℝ) * Real.sqrt (normSqQ a : ℝ) ≤
        (dotQ q a : ℝ) * Real.sqrt (normSqQ b : ℝ)) := by
  have hna : (0 : ℝ) < Real.sqrt (normSqQ a : ℝ) :=
    Real.sqrt_pos.mpr (by exact_mod_cast normSqQ_pos_right ha)
  have hnb : (0 : ℝ) < Real.sqrt (normSqQ b : ℝ) :=
    Real.sqrt_pos.mpr (by exact_mod_cast normSqQ_pos_right hb)
  have hnq : (0 : ℝ) < Real.sqrt (normSqQ q : ℝ) :=
    Real.sqrt_pos.mpr (by exact_mod_cast normSqQ_pos_left ha)
  rw [cosSimR, cosSimR, div_le_div_iff₀ (mul_pos hnq hnb) (mul_pos hnq hna)]
  constructor
  · intro h
    have h2 : Real.sqrt (normSqQ q : ℝ) * ((dotQ q b : ℝ) * Real.sqrt (normSqQ a : ℝ)) ≤
        Real.sqrt (normSqQ q : ℝ) * ((dotQ q a : ℝ) * Real.sqrt (normSqQ b : ℝ)) := by
      nlinarith
    exact le_of_mul_le_mul_left h2 hnq
  · intro h
    nlinarith

theorem sq_sqrt_normSq (v : List ℚ) :
    Real.sqrt (normSqQ v : ℝ) * Real.sqrt (normSqQ v : ℝ) = (normSqQ v : ℝ) :=
  Real.mul_self_sqrt (by exact_mod_cast normSqQ_nonneg v)

theorem cosSimR_le_iff_of_pos {q a b : List ℚ} (ha : 0 < dotQ q a) (hb : 0 < dotQ q b) :
    (cosSimR q b ≤ cosSimR q a ↔
      (dotQ q b) ^ 2 * normSqQ a ≤ (dotQ q a) ^ 2 * normSqQ b) := by
  rw [cosSimR_le_iff_mul (ne_of_gt ha) (ne_of_gt hb)]
  have hsa := sq_sqrt_normSq a
  have hsb := sq_sqrt_normSq b
  have hpa : (0 : ℝ) < Real.sqrt (normSqQ a : ℝ) :=
    Real.sqrt_pos.mpr (by exact_mod_cast normSqQ_pos_right (ne_of_gt ha))
  have hpb : (0 : ℝ) < Real.sqrt (normSqQ b : ℝ) :=
    Real.sqrt_pos.mpr (by exact_mod_cast normSqQ_pos_right (ne_of_gt hb))
  have haR : (0 : ℝ) < (dotQ q a : ℝ) := by exact_mod_cast ha
  have hbR : (0 : ℝ) < (dotQ q b : ℝ) := by exact_mod_cast hb
  constructor
  · intro h
    have key := mul_self_le_mul_self (le_of_lt (mul_pos hbR hpa)) h
    have hsq : ((dotQ q b : ℝ)) ^ 2 * (normSqQ a : ℝ) ≤
        ((dotQ q a : ℝ)) ^ 2 * (normSqQ b : ℝ) := by
      calc ((dotQ q b : ℝ)) ^ 2 * (normSqQ a : ℝ)
          = ((dotQ q b : ℝ) * Real.sqrt (normSqQ a : ℝ)) *
              ((dotQ q b : ℝ) * Real.sqrt (normSqQ a : ℝ)) := by
            linear_combination (-((dotQ q b : ℝ)) ^ 2) * hsa
        _ ≤ ((dotQ q a : ℝ) * Real.sqrt (normSqQ b : ℝ)) *
              ((dotQ q a : ℝ) * Real.sqrt (normSqQ b : ℝ)) := key
        _ = ((dotQ q a : ℝ)) ^ 2 * (normSqQ b : ℝ) := by
            linear_combination ((dotQ q a : ℝ)) ^ 2 * hsb
    exact_mod_cast hsq
  · intro h
    have hsq : ((dotQ q b : ℝ)) ^ 2 * (normSqQ a : ℝ) ≤
        ((dotQ q a : ℝ)) ^ 2 * (normSqQ b : ℝ) := by exact_mod_cast h
    by_contra hcon
    push_neg at hcon
    have key := mul_self_lt_mul_self (le_of_lt (mul_pos haR hpb)) hcon
    have : ((dotQ q a : ℝ)) ^ 2 * (normSqQ b : ℝ) <
        ((dotQ q b : ℝ)) ^ 2 * (normSqQ a : ℝ) := by
      calc ((dotQ q a : ℝ)) ^ 2 * (normSqQ b : ℝ)
          = ((dotQ q a : ℝ) * Real.sqrt (normSqQ b : ℝ)) *
              ((dotQ q a : ℝ) * Real.sqrt (normSqQ b : ℝ)) := by
            linear_combination (-((dotQ q a : ℝ)) ^ 2) * hsb
        _ < ((dotQ q b : ℝ) * Real.sqrt (normSqQ a : ℝ)) *
              ((dotQ q b : ℝ) * Real.sqrt (normSqQ a : ℝ)) := key
        _ = ((dotQ q b : ℝ)) ^ 2 * (normSqQ a : ℝ) := by
            linear_combination ((dotQ q b : ℝ)) ^ 2 * hsa
    linarith

theorem cosSimR_le_iff_of_neg {q a b : List ℚ} (ha : dotQ q a < 0) (hb : dotQ q b < 0) :
    (cosSimR q b ≤ cosSimR q a ↔
      (dotQ q a) ^ 2 * normSqQ b ≤ (dotQ q b) ^ 2 * normSqQ a) := by
  rw [cosSimR_le_iff_mul (ne_of_lt ha) (ne_of_lt hb)]
  have hsa := sq_sqrt_normSq a
  have hsb := sq_sqrt_normSq b
  have hpa : (0 : ℝ) < Real.sqrt (normSqQ a : ℝ) :=
    Real.sqrt_pos.mpr (by exact_mod_cast normSqQ_pos_right (ne_of_lt ha))
  have hpb : (0 : ℝ) < Real.sqrt (normSqQ b : ℝ) :=
    Real.sqrt_pos.mpr (by exact_mod_cast normSqQ_pos_right (ne_of_lt hb))
  have haR : (dotQ q a : ℝ) < 0 := by exact_mod_cast ha
  have hbR : (dotQ q b : ℝ) < 0 := by exact_mod_cast hb
  have hnega : (0 : ℝ) ≤ -((dotQ q a : ℝ) * Real.sqrt (normSqQ b : ℝ)) := by
    have := mul_pos (neg_pos.mpr haR) hpb
    linarith [neg_mul (dotQ q a : ℝ) (Real.sqrt (normSqQ b : ℝ))]
  have hnegb : (0 : ℝ) ≤ -((dotQ q b : ℝ) * Real.sqrt (normSqQ a : ℝ)) := by
    have := mul_pos (neg_pos.mpr hbR) hpa
    linarith [neg_mul (dotQ q b : ℝ) (Real.sqrt (normSqQ a : ℝ))]
  constructor
  · intro h
    have key := mul_self_le_mul_self hnega (by linarith :
      -((dotQ q a : ℝ) * Real.sqrt (normSqQ b : ℝ)) ≤
        -((dotQ q b : ℝ) * Real.sqrt (normSqQ a : ℝ)))
    have hsq : ((dotQ q a : ℝ)) ^ 2 * (normSqQ b : ℝ) ≤
        ((dotQ q b : ℝ)) ^ 2 * (normSqQ a : ℝ) := by
      calc ((dotQ q a : ℝ)) ^ 2 * (normSqQ b : ℝ)
          = -((dotQ q a : ℝ) * Real.sqrt (normSqQ b : ℝ)) *
              -((dotQ q a : ℝ) * Real.sqrt (normSqQ b : ℝ)) := by
            linear_combination (-((dotQ q a : ℝ)) ^ 2) * hsb
        _ ≤ -((dotQ q b : ℝ) * Real.sqrt (normSqQ a : ℝ)) *
              -((dotQ q b : ℝ) * Real.sqrt (normSqQ a : ℝ)) := key
        _ = ((dotQ q b : ℝ)) ^ 2 * (normSqQ a : ℝ) := by
            linear_combination ((dotQ q b : ℝ)) ^ 2 * hsa
    exact_mod_cast hsq
  · intro h
    have hsq : ((dotQ q a : ℝ)) ^ 2 * (normSqQ b : ℝ) ≤
        ((dotQ q b : ℝ)) ^ 2 * (normSqQ a : ℝ) := by exact_mod_cast h
    by_contra hcon
    push_neg at hcon
    have key := mul_self_lt_mul_self hnegb (by linarith :
      -((dotQ q b : ℝ) * Real.sqrt (normSqQ a : ℝ)) <
        -((dotQ q a : ℝ) * Real.sqrt (normSqQ b : ℝ)))
    have : ((dotQ q b : ℝ)) ^ 2 * (normSqQ a : ℝ) <
        ((dotQ q a : ℝ)) ^ 2 * (normSqQ b : ℝ) := by
      calc ((dotQ q b : ℝ)) ^ 2 * (normSqQ a : ℝ)
          = -((dotQ q b : ℝ) * Real.sqrt (normSqQ a : ℝ)) *
              -((dotQ q b : ℝ) * Real.sqrt (normSqQ a : ℝ)) := by
            linear_combination (-((dotQ q b : ℝ)) ^ 2) * hsa
        _ < -((dotQ q a : ℝ) * Real.sqrt (normSqQ b : ℝ)) *
              -((dotQ q a : ℝ) * Real.sqrt (normSqQ b : ℝ)) := key
        _ = ((dotQ q a : ℝ)) ^ 2 * (normSqQ b : ℝ) := by
            linear_combination ((dotQ q a : ℝ)) ^ 2 * hsb
    linarith

theorem simGE_iff (q a b : List ℚ) :
    simGE q a b = true ↔ cosSimR q b ≤ cosSimR q a := by
  rw [simGE]
  rcases lt_trichotomy (dotQ q a) 0 with ha | ha | ha
  · rw [if_neg (not_lt.mpr (le_of_lt ha)), if_neg (ne_of_lt ha)]
    simp only [Bool.and_eq_true, decide_eq_true_eq]
    rcases lt_trichotomy (dotQ q b) 0 with hb | hb | hb
    · rw [cosSimR_le_iff_of_neg ha hb]
      exact ⟨fun h => h.2, fun h => ⟨hb, h⟩⟩
    · constructor
      · intro h
        rw [hb] at h
        exact absurd h.1 (lt_irrefl 0)
      · intro h
        have h1 := cosSimR_of_dot_zero hb
        have h2 := cosSimR_neg ha
        linarith
    · constructor
      · intro h
        exact absurd h.1 (not_lt_of_gt hb)
      · intro h
        have h1 := cosSimR_pos hb
        have h2 := cosSimR_neg ha
        linarith
  · rw [if_neg (by rw [ha]; exact lt_irrefl 0), if_pos ha, decide_eq_true_eq,
      cosSimR_of_dot_zero ha]
    rcases lt_trichotomy (dotQ q b) 0 with hb | hb | hb
    · exact ⟨fun _ => le_of_lt (cosSimR_neg hb), fun _ => le_of_lt hb⟩
    · rw [cosSimR_of_dot_zero hb]
      exact ⟨fun _ => le_refl 0, fun _ => le_of_eq hb⟩
    · constructor
      · intro h
        exact absurd hb (not_lt_of_ge h)
      · intro h
        exact absurd (cosSimR_pos hb) (not_lt_of_ge h)
  · rw [if_pos ha]
    simp only [Bool.or_eq_true, decide_eq_true_eq]
    rcases lt_trichotomy (dotQ q b) 0 with hb | hb | hb
    · constructor
      · intro _
        have h1 := cosSimR_neg hb
        have h2 := cosSimR_pos ha
        linarith
      · intro _
        exact Or.inl (le_of_lt hb)
    · constructor
      · intro _
        rw [cosSimR_of_dot_zero hb]
        exact le_of_lt (cosSimR_pos ha)
      · intro _
        exact Or.inl (le_of_eq hb)
    · rw [cosSimR_le_iff_of_pos ha hb]
      constructor
      · intro h
        rcases h with h | h
        · exact absurd hb (not_lt_of_ge h)
        · exact h
      · intro h
        exact Or.inr h

/-! ### Ranking relation lemmas -/

theorem entryRel_iff (q : List ℚ) (x y : Nat × IndexEntry) :
    entryRel q x y ↔
      (cosSimR q y.2.vec < cosSimR q x.2.vec ∨
        (cosSimR q x.2.vec = cosSimR q y.2.vec ∧ x.1 ≤ y.1)) := by
  rw [entryRel]
  by_cases hc : (simGE q x.2.vec y.2.vec && simGE q y.2.vec x.2.vec) = true
  · rw [if_pos hc, decide_eq_true_eq]
    rw [Bool.and_eq_true] at hc
    have heq : cosSimR q x.2.vec = cosSimR q y.2.vec :=
      le_antisymm ((simGE_iff ..).mp hc.2) ((simGE_iff ..).mp hc.1)
    constructor
    · intro h
      exact Or.inr ⟨heq, h⟩
    · rintro (h | ⟨h1, h2⟩)
      · rw [heq] at h
        exact absurd h (lt_irrefl _)
      · exact h2
  · rw [if_neg hc, simGE_iff]
    rw [Bool.and_eq_true] at hc
    constructor
    · intro h
      rcases lt_or_eq_of_le h with hlt | heq2
      · exact Or.inl hlt
      · exact absurd ⟨(simGE_iff ..).mpr h, (simGE_iff ..).mpr (le_of_eq heq2.symm)⟩ hc
    · rintro (h | ⟨h1, h2⟩)
      · exact le_of_lt h
      · exact absurd ⟨(simGE_iff ..).mpr (le_of_eq h1.symm), (simGE_iff ..).mpr (le_of_eq h1)⟩ hc

instance entryRel.isTotal (q : List ℚ) : IsTotal (Nat × IndexEntry) (entryRel q) := by
  constructor
  intro x y
  rw [entryRel_iff, entryRel_iff]
  rcases lt_trichotomy (cosSimR q x.2.vec) (cosSimR q y.2.vec) with h | h | h
  · exact Or.inr (Or.inl h)
  · rcases Nat.le_total x.1 y.1 with hn | hn
    · exact Or.inl (Or.inr ⟨h, hn⟩)
    · exact Or.inr (Or.inr ⟨h.symm, hn⟩)
  · exact Or.inl (Or.inl h)

instance entryRel.isTrans (q : List ℚ) : IsTrans (Nat × IndexEntry) (entryRel q) := by
  constructor
  intro x y z hxy hyz
  rw [entryRel_iff] at hxy hyz ⊢
  rcases hxy with h1 | ⟨e1, l1⟩ <;> rcases hyz with h2 | ⟨e2, l2⟩
  · exact Or.inl (lt_trans h2 h1)
  · exact Or.inl (e2 ▸ h1)
  · exact Or.inl (by rw [e1]; exact h2)
  · exact Or.inr ⟨e1.trans e2, le_trans l1 l2⟩

/-- C3: on a non-empty index and a query of the index's dimension, `search`
returns `min k N` results ranked by descending cosine similarity to the
query, ties broken by insertion order (earlier position first); with `k ≥ N`
the result is a permutation of all position-tagged entries, which in
particular returns both of two entries inserted with identical vectors, in
insertion order and with equal scores. -/
theorem C3_search_ranked (ix : VectorIndex) (q : List ℚ) (k : Nat)
    (hne : ix.entries ≠ []) (hdim : q.length = ix.dim) :
    ∃ r, ix.search q k = .ok r ∧
      r.length = min k ix.entries.length ∧
      List.Pairwise (fun x y => cosSimR q y.2.vec ≤ cosSimR q x.2.vec ∧
        (cosSimR q x.2.vec = cosSimR q y.2.vec → x.1 < y.1)) r ∧
      (ix.entries.length ≤ k → List.Perm r ix.entries.enum) := by
  have hsorted := List.sorted_insertionSort (entryRel q) ix.entries.enum
  have hperm := List.perm_insertionSort (entryRel q) ix.entries.enum
  have hlen : (ix.entries.enum.insertionSort (entryRel q)).length =
      ix.entries.length := by
    rw [hperm.length_eq, List.enum_length]
  have hnodup : ((ix.entries.enum.insertionSort (entryRel q)).map Prod.fst).Nodup :=
    ((hperm.map Prod.fst).nodup_iff).mpr (List.nodup_enum_map_fst _)
  have hnefst : (ix.entries.enum.insertionSort (entryRel q)).Pairwise
      (fun a b => a.1 ≠ b.1) := List.pairwise_map.mp hnodup
  have hpw : (ix.entries.enum.insertionSort (entryRel q)).Pairwise
      (fun x y => cosSimR q y.2.vec ≤ cosSimR q x.2.vec ∧
        (cosSimR q x.2.vec = cosSimR q y.2.vec → x.1 < y.1)) := by
    refine (hsorted.and hnefst).imp ?_
    intro a b hab
    rcases hab with ⟨hrel, hne1⟩
    rw [entryRel_iff] at hrel
    rcases hrel with hlt | ⟨heq, hle⟩
    · constructor
      · exact le_of_lt hlt
      · intro heq2
        rw [heq2] at hlt
        exact absurd hlt (lt_irrefl _)
    · exact ⟨le_of_eq heq.symm, fun _ => lt_of_le_of_ne hle hne1⟩
  refine ⟨(ix.entries.enum.insertionSort (entryRel q)).take k, ?_, ?_, ?_, ?_⟩
  · rcases hE : ix.entries with _ | ⟨e, es⟩
    · exact absurd hE hne
    · rw [VectorIndex.search]
      rw [hE]
      simp only
      rw [if_pos hdim, ← hE]
  · rw [List.length_take, hlen]
  · exact hpw.sublist (List.take_sublist ..)
  · intro hk
    rw [List.take_of_length_le (by rw [hlen]; exact hk)]
    exact hperm

theorem C3_witness :
    (⟨[⟨0, "alpha", [1]⟩, ⟨1, "beta", [1]⟩]⟩ : VectorIndex).entries ≠ [] ∧
    ∃ r, (⟨[⟨0, "alpha", [1]⟩, ⟨1, "beta", [1]⟩]⟩ : VectorIndex).search [1] 2 = .ok r ∧
      r.length = min 2 2 ∧
      List.Pairwise (fun x y => cosSimR [1] y.2.vec ≤ cosSimR [1] x.2.vec ∧
        (cosSimR [1] x.2.vec = cosSimR [1] y.2.vec → x.1 < y.1)) r ∧
      (2 ≤ 2 → List.Perm r
        ((⟨[⟨0, "alpha", [1]⟩, ⟨1, "beta", [1]⟩]⟩ : VectorIndex).entries.enum)) :=
  ⟨by simp,
   C3_search_ranked ⟨[⟨0, "alpha", [1]⟩, ⟨1, "beta", [1]⟩]⟩ [1] 2 (by simp) rfl⟩

/-- C6: once the index's dimension `d` is established by the first inserted
vector, inserting any entry whose vector length differs from `d` fails with
`DimensionMismatch`, and searching with a query whose length differs from
`d` also fails with `DimensionMismatch`. -/
theorem C6_dimension_mismatch (ix : VectorIndex) (items : List (String × List ℚ))
    (q : List ℚ) (k : Nat) (hne : ix.entries ≠ []) :
    ((∃ p ∈ items, p.2.length ≠ ix.dim) →
      ix.insert items = .error .DimensionMismatch) ∧
    (q.length ≠ ix.dim →
      ix.search q k = .error .DimensionMismatch) := by
  rcases hE : ix.entries with _ | ⟨e, es⟩
  · exact absurd hE hne
  have hdim : ix.dim = e.vec.length := by
    rw [VectorIndex.dim, hE]
  have hinsdim : ix.insertDim items = e.vec.length := by
    simp only [VectorIndex.insertDim, hE]
  constructor
  · rintro ⟨p, hp, hplen⟩
    rw [VectorIndex.insert, if_neg]
    rw [Bool.not_eq_true, List.all_eq_false]
    refine ⟨p, hp, ?_⟩
    rw [hdim] at hplen
    rw [hinsdim]
    simp [hplen]
  · intro hq
    rw [VectorIndex.search, hE]
    simp only
    rw [if_neg hq]

theorem C6_witness :
    (⟨[⟨0, "alpha", [1, 2]⟩]⟩ : VectorIndex).insert [("beta", [1, 2, 3])] =
        .error .DimensionMismatch ∧
    (⟨[⟨0, "alpha", [1, 2]⟩]⟩ : VectorIndex).search [1] 1 =
        .error .DimensionMismatch :=
  ⟨(C6_dimension_mismatch ⟨[⟨0, "alpha", [1, 2]⟩]⟩ [("beta", [1, 2, 3])] [1] 1
      (by simp)).1 ⟨("beta", [1, 2, 3]), by simp, by simp [VectorIndex.dim]⟩,
   (C6_dimension_mismatch ⟨[⟨0, "alpha", [1, 2]⟩]⟩ [("beta", [1, 2, 3])] [1] 1
      (by simp)).2 (by simp [VectorIndex.dim])⟩

/-- C7: `search` on an index containing no entries fails with `EmptyIndex`,
for every query vector and every positive `k`. -/
theorem C7_search_empty (ix : VectorIndex) (q : List ℚ) (k : Nat)
    (hempty : ix.entries = []) (_hk : 0 < k) :
    ix.search q k = .error .EmptyIndex := by
  rw [VectorIndex.search, hempty]

theorem C7_witness :
    (⟨[]⟩ : VectorIndex).search [1, 2] 3 = .error .EmptyIndex :=
  C7_search_empty ⟨[]⟩ [1, 2] 3 rfl (by decide)

/-! ### ConversationSession lemmas -/

/-- C4: when the session is idle and the retrieval step or the answering
step inside `ask` fails, `ask` surfaces that failure to the caller, the
session ends in `Idle`, and the history sequence is exactly what it was
before the call (no turn appended). -/
theorem C4_failed_ask_preserves_history
    (retrieve : String → Except CoreError (List String))
    (answerer : String → List String → List (String × String) →
      Except CoreError String)
    (s : ConversationSession) (q : String) (e : CoreError)
    (hidle : s.sstate = .Idle)
    (hfail : retrieve q = .error e ∨
      (∃ ctx, retrieve q = .ok ctx ∧ answerer q ctx s.history = .error e)) :
    ConversationSession.ask retrieve answerer s q =
      ({ history := s.history, sstate := .Idle }, .error e) := by
  rw [ConversationSession.ask, ConversationSession.beginAsk, hidle]
  simp only
  rcases hfail with hr | ⟨ctx, hr, ha⟩
  · rw [hr]
    rfl
  · rw [hr]
    simp only
    rw [show ({ s with sstate := SessionState.AwaitingAnswer q } :
        ConversationSession).history = s.history from rfl, ha]
    rfl

theorem C4_witness :
    ConversationSession.ask (fun _ => .error .EmbeddingServiceError)
        (fun _ _ _ => .ok "unused") ⟨[("q0", "a0")], .Idle⟩ "q1" =
      (⟨[("q0", "a0")], .Idle⟩, .error .EmbeddingServiceError) :=
  C4_failed_ask_preserves_history (fun _ => .error .EmbeddingServiceError)
    (fun _ _ _ => .ok "unused") ⟨[("q0", "a0")], .Idle⟩ "q1"
    .EmbeddingServiceError rfl (Or.inl rfl)

/-- C8: from a fresh session with empty history, a successful
`ask "When was Apple founded?"` leaves a history of length exactly one whose
single element pairs that literal question with the returned answer. -/
theorem C8_first_ask_history
    (retrieve : String → Except CoreError (List String))
    (answerer : String → List String → List (String × String) →
      Except CoreError String)
    (s : ConversationSession) (a : String)
    (hh : s.history = []) (hidle : s.sstate = .Idle)
    (hok : (ConversationSession.ask retrieve answerer s
      "When was Apple founded?").2 = .ok a) :
    (ConversationSession.ask retrieve answerer s
        "When was Apple founded?").1.history =
      [("When was Apple founded?", a)] := by
  rw [ConversationSession.ask, ConversationSession.beginAsk, hidle] at hok ⊢
  simp only at hok ⊢
  rcases hr : retrieve "When was Apple founded?" with er | ctx
  · rw [hr] at hok
    simp [ConversationSession.finishAsk] at hok
  · rw [hr] at hok
    simp only [ConversationSession.finishAsk] at hok ⊢
    rcases ha : answerer "When was Apple founded?" ctx s.history with ea | ans
    · rw [ha] at hok
      simp at hok
    · rw [ha] at hok
      simp only [Except.ok.injEq] at hok
      subst hok
      simp [hh]

theorem C8_witness :
    (ConversationSession.ask (fun _ => .ok [])
        (fun _ _ _ => .ok "Apple was founded on April 1, 1976.")
        ⟨[], .Idle⟩ "When was Apple founded?").1.history =
      [("When was Apple founded?", "Apple was founded on April 1, 1976.")] :=
  C8_first_ask_history (fun _ => .ok [])
    (fun _ _ _ => .ok "Apple was founded on April 1, 1976.")
    ⟨[], .Idle⟩ "Apple was founded on April 1, 1976." rfl rfl rfl

/-- C9: while a session is in `AwaitingAnswer` (one `ask` outstanding), a
second `ask` on the same session is rejected with `SessionBusy` and the
session — history included — is left completely unchanged, so concurrent
asks can never interleave or corrupt the history. -/
theorem C9_second_ask_busy
    (retrieve : String → Except CoreError (List String))
    (answerer : String → List String → List (String × String) →
      Except CoreError String)
    (s : ConversationSession) (q p : String)
    (hbusy : s.sstate = .AwaitingAnswer p) :
    ConversationSession.ask retrieve answerer s q = (s, .error .SessionBusy) := by
  rw [ConversationSession.ask, ConversationSession.beginAsk, hbusy]

theorem C9_witness :
    ConversationSession.ask (fun _ => .ok [])
        (fun _ _ _ => .ok "late") ⟨[], .AwaitingAnswer "first"⟩ "second" =
      (⟨[], .AwaitingAnswer "first"⟩, .error .SessionBusy) :=
  C9_second_ask_busy (fun _ => .ok []) (fun _ _ _ => .ok "late")
    ⟨[], .AwaitingAnswer "first"⟩ "second" "first" rfl

theorem retrieveSt_index_eq (emb : String → Except CoreError (List ℚ)) (k : Nat)
    (st : BotState) (question : String) :
    (Retriever.retrieveSt emb k st question).1.index = st.index := by
  rw [Retriever.retrieveSt]
  rcases emb question with e | qv
  · rfl
  · rfl

/-- C10: queries never rewrite the index: the stateful `search` returns the
caller\'s index unchanged, `Retriever.retrieveSt` leaves the pipeline\'s index
component — entries, ids, chunks, vectors, and insertion order — exactly as
it was, and so does a full `askBot` turn, whatever its outcome. -/
theorem C10_search_and_retrieve_frame
    (emb : String → Except CoreError (List ℚ))
    (answerer : String → List String → List (String × String) →
      Except CoreError String)
    (k : Nat) (st : BotState) (question : String)
    (ix : VectorIndex) (qv : List ℚ) (kk : Nat) :
    (ix.searchSt qv kk).1 = ix ∧
    (Retriever.retrieveSt emb k st question).1.index = st.index ∧
    (askBot emb answerer k st question).1.index = st.index := by
  refine ⟨rfl, retrieveSt_index_eq emb k st question, ?_⟩
  obtain ⟨ixst, hist, sst⟩ := st
  rcases sst with _ | p
  · rcases he : emb question with e | qv2
    · simp only [askBot, ConversationSession.beginAsk, Retriever.retrieveSt, he]
    · simp only [askBot, ConversationSession.beginAsk, Retriever.retrieveSt,
        VectorIndex.searchSt, ConversationSession.finishAsk, he]
      split
      · next st2 e2 heq =>
        exact (congrArg (fun p => p.1.index) heq).symm
      · next st2 ctx heq =>
        split <;> exact (congrArg (fun p => p.1.index) heq).symm
  · simp only [askBot, ConversationSession.beginAsk]
